import Mathlib

/-!
Verification of the colander conversion/validation engine (src/colander/__init__.py).

The development shallowly embeds the core of the engine:
* a `Val` universe for the Python values the engine manipulates
  (strings, integers, booleans, lists, tuples, and string-keyed dicts);
* the `Invalid` error tree with `paths`/`asdict` reporting;
* the types `Mapping`, `Sequence`, `Tuple`, `Integer`, `Boolean` and the
  `SchemaNode` driver, as a single conversion function `conv` parameterised
  by a direction (`deserialize`/`serialize`).

Modelling conventions:
* Python dicts are modelled as insertion-ordered association lists with
  unique keys; Python dict equality is extensional, and all dicts built by
  the engine are in this canonical form, so structural equality of the
  model coincides with Python `==` on the values the engine produces.
* Python exceptions other than `Invalid` that can escape the engine
  (the `IndexError` raised by `node.nodes[0]` on a childless Sequence)
  are modelled by the `Err.indexError` constructor; `try/except Invalid`
  blocks catch only `Err.invalid`.
* `str`/`repr` of values are modelled by `pyStr`/`pyRepr`; the Python
  exception text appended to the "is not a mapping type" message is
  abstracted away (no claim depends on it).
* Validators (`All`/`Range`/`OneOf`) and the `String`/`Float`/
  `GlobalObject` types are orthogonal to every claim under check and are
  not part of the embedding; `SchemaNode.deserialize` is modelled for
  nodes without a validator, where it is exactly `self.typ.deserialize`.
-/

namespace Colander

/-- The universe of Python values handled by the engine: strings, ints,
booleans, lists, tuples and string-keyed dicts. -/
inductive Val where
  | str (s : String)
  | int (n : Int)
  | bool (b : Bool)
  | list (xs : List Val)
  | tuple (xs : List Val)
  | map (entries : List (String × Val))

/-- Python dict, modelled as an insertion-ordered association list. -/
abbrev Dict := List (String × Val)

/-- Python `d[k] = v`: replace the value at the first occurrence of `k`, keeping
its position, or append a fresh entry at the end (Python dict assignment). -/
def alInsert {α : Type} (k : String) (v : α) : List (String × α) → List (String × α)
  | [] => [(k, v)]
  | (k2, v2) :: rest =>
    if k = k2 then (k, v) :: rest else (k2, v2) :: alInsert k v rest

/-- Python `d.get(k)`: first value stored under `k`, if any. -/
def alGet {α : Type} (k : String) : List (String × α) → Option α
  | [] => none
  | (k2, v2) :: rest => if k = k2 then some v2 else alGet k rest

/-- Removal of every entry stored under `k` (for a dict with unique keys,
exactly `del d[k]`). -/
def alRemove {α : Type} (k : String) (d : List (String × α)) : List (String × α) :=
  d.filter (fun e => e.1 ≠ k)

/-- Python `dict(pairs)`: build a dict by assigning the pairs left to right
(a later binding of the same key wins). -/
def alOfPairs {α : Type} (ps : List (String × α)) : List (String × α) :=
  ps.foldl (fun d e => alInsert e.1 e.2 d) []

/-- Python `d.update(u)`: assign every binding of `u` into `d`, left to right. -/
def alUpdate {α : Type} (d u : List (String × α)) : List (String × α) :=
  u.foldl (fun d e => alInsert e.1 e.2 d) d

/-- Decimal digit character. -/
def digitChar : Nat → Char
  | 0 => '0' | 1 => '1' | 2 => '2' | 3 => '3' | 4 => '4'
  | 5 => '5' | 6 => '6' | 7 => '7' | 8 => '8' | 9 => '9'
  | _ => '?'

/-- Decimal digits of `n`, most significant first (`fuel ≥ n + 1` suffices). -/
def natDigitsAux : Nat → Nat → List Char
  | 0, _ => []
  | fuel + 1, n =>
    if n < 10 then [digitChar n]
    else natDigitsAux fuel (n / 10) ++ [digitChar (n % 10)]

/-- Python `str` of a natural number. -/
def natToStr (n : Nat) : String := String.mk (natDigitsAux (n + 1) n)

/-- Python `str` of an integer. -/
def intToStr (i : Int) : String :=
  if i < 0 then "-" ++ natToStr (-i).toNat else natToStr i.toNat

/-- ASCII lower-casing of a character (Python `str.lower` on the ASCII range). -/
def lowerChar : Char → Char
  | 'A' => 'a' | 'B' => 'b' | 'C' => 'c' | 'D' => 'd' | 'E' => 'e'
  | 'F' => 'f' | 'G' => 'g' | 'H' => 'h' | 'I' => 'i' | 'J' => 'j'
  | 'K' => 'k' | 'L' => 'l' | 'M' => 'm' | 'N' => 'n' | 'O' => 'o'
  | 'P' => 'p' | 'Q' => 'q' | 'R' => 'r' | 'S' => 's' | 'T' => 't'
  | 'U' => 'u' | 'V' => 'v' | 'W' => 'w' | 'X' => 'x' | 'Y' => 'y'
  | 'Z' => 'z'
  | c => c

/-- Python `str.lower`. -/
def asciiLower (s : String) : String := String.mk (s.data.map lowerChar)

/-- Python `'.'.join` of a list of strings. -/
def joinDot : List String → String
  | [] => ""
  | [s] => s
  | s :: rest => s ++ "." ++ joinDot rest

/-- Python `'; '.join` of a list of strings. -/
def joinSemi : List String → String
  | [] => ""
  | [s] => s
  | s :: rest => s ++ "; " ++ joinSemi rest

/-- Python `', '.join` of a list of strings. -/
def joinComma : List String → String
  | [] => ""
  | [s] => s
  | s :: rest => s ++ ", " ++ joinComma rest

mutual

/-- Python `repr` of a value (string escaping inside quotes is not modelled;
no claim exercises it). -/
def pyRepr : Val → String
  | .str s => "'" ++ s ++ "'"
  | .int n => intToStr n
  | .bool b => if b then "True" else "False"
  | .list xs => "[" ++ reprJoin xs ++ "]"
  | .tuple xs =>
    "(" ++ reprJoin xs ++ (match xs with | [_] => ",)" | _ => ")")
  | .map e => "\x7b" ++ reprPairs e ++ "\x7d"
termination_by v => sizeOf v
decreasing_by all_goals (simp_wf; try omega)

/-- Comma-joined reprs of list elements. -/
def reprJoin : List Val → String
  | [] => ""
  | [x] => pyRepr x
  | x :: rest => pyRepr x ++ ", " ++ reprJoin rest
termination_by xs => sizeOf xs
decreasing_by all_goals (simp_wf; try omega)

/-- Comma-joined `'k': v` reprs of dict entries. -/
def reprPairs : List (String × Val) → String
  | [] => ""
  | [(k, v)] => "'" ++ k ++ "': " ++ pyRepr v
  | (k, v) :: rest => "'" ++ k ++ "': " ++ pyRepr v ++ ", " ++ reprPairs rest
termination_by e => sizeOf e
decreasing_by all_goals (simp_wf; try omega)

end

/-- Python `str` of a value (`str` and `repr` agree except on strings). -/
def pyStr : Val → String
  | .str s => s
  | v => pyRepr v

/-- Python truthiness of a value. -/
def pyTruthy : Val → Bool
  | .str s => !(s == "")
  | .int n => !(n == 0)
  | .bool b => b
  | .list xs => !xs.isEmpty
  | .tuple xs => !xs.isEmpty
  | .map e => !e.isEmpty

/-- Attribute test `hasattr(value, '__iter__')` in Python 2: lists, tuples and dicts have
`__iter__`; `str`, `int` and `bool` do not. -/
def hasIter : Val → Bool
  | .list _ => true
  | .tuple _ => true
  | .map _ => true
  | _ => false

/-- Attribute test `hasattr(value, 'get')`: only dicts have a `get` method. -/
def hasGet : Val → Bool
  | .map _ => true
  | _ => false

/-- Python `list(value)` for a value with `__iter__`: iterating a dict yields its
keys. Only used under a `hasIter` guard. -/
def pyList : Val → List Val
  | .list xs => xs
  | .tuple xs => xs
  | .map e => e.map (fun p => Val.str p.1)
  | _ => []

/-- Python `int(value)`: ints and bools convert; strings are parsed as optionally
signed base-10 integers after stripping whitespace; everything else fails. -/
def digitVal (c : Char) : Option Nat :=
  if '0' ≤ c ∧ c ≤ '9' then some (c.toNat - '0'.toNat) else none

/-- Parse a nonempty all-digit character list as a natural number. -/
def parseDigits : List Char → Option Nat
  | [] => none
  | cs => go cs 0
where
  go : List Char → Nat → Option Nat
    | [], acc => some acc
    | c :: rest, acc =>
      match digitVal c with
      | none => none
      | some d => go rest (acc * 10 + d)

/-- Python whitespace (the characters stripped by `int()`). -/
def isPySpace (c : Char) : Bool :=
  c = ' ' ∨ c = '\t' ∨ c = '\n' ∨ c = '\x0d' ∨ c = '\x0b' ∨ c = '\x0c'

/-- Parse a Python `int()` string argument. -/
def parseIntStr (s : String) : Option Int :=
  let cs := ((s.data.dropWhile isPySpace).reverse.dropWhile isPySpace).reverse
  match cs with
  | '-' :: rest => (parseDigits rest).map (fun n => -(n : Int))
  | '+' :: rest => (parseDigits rest).map (fun n => (n : Int))
  | rest => (parseDigits rest).map (fun n => (n : Int))

/-- Python `int(value)` on the modelled universe. -/
def pyIntCoerce : Val → Option Int
  | .int n => some n
  | .bool b => some (if b then 1 else 0)
  | .str s => parseIntStr s
  | _ => none

/-- Python `dict(value)`: a dict is copied; a list/tuple of key/value pairs (with
string keys, the only representable ones) or of two-character strings
builds a dict; everything else is not coercible. -/
def pairOf (x : Val) : Option (String × Val) :=
  match x with
  | .list [.str k, v] => some (k, v)
  | .tuple [.str k, v] => some (k, v)
  | .str s =>
    match s.data with
    | [c1, c2] => some (String.mk [c1], Val.str (String.mk [c2]))
    | _ => none
  | _ => none

/-- Sequence of key/value pairs for `dict(...)`, if every element is one. -/
def pairsOf : List Val → Option (List (String × Val))
  | [] => some []
  | x :: rest =>
    match pairOf x with
    | none => none
    | some p => (pairsOf rest).map (fun ps => p :: ps)

/-- Python `dict(value)` on the modelled universe. -/
def dictCoerce : Val → Option Dict
  | .map e => some e
  | .list xs => (pairsOf xs).map alOfPairs
  | .tuple xs => (pairsOf xs).map alOfPairs
  | _ => none

/-- The `unknown_keys` policy of the `Mapping` type. -/
inductive UnknownKeys where
  | ignore
  | raise
  | preserve

/-- The type bound to a schema node: `Mapping(unknown_keys)`,
`Sequence(accept_scalar)`, `Tuple`, `Integer` or `Boolean`. -/
inductive Typ where
  | mapping (unknownKeys : UnknownKeys)
  | sequence (acceptScalar : Bool)
  | tuple
  | integer
  | boolean

/-- Marker test `isinstance(typ, Positional)`: `Sequence` and `Tuple` subclass the
`Positional` marker class; `Mapping` and the scalar types do not. -/
def Typ.positional : Typ → Bool
  | .sequence _ => true
  | .tuple => true
  | _ => false

/-- The schema node `colander.SchemaNode`: a type, a name, an optional default
(`default = none` models the `_missing` sentinel, so the node is required),
and the ordered list of child nodes. -/
inductive SchemaNode where
  | mk (typ : Typ) (name : String) (default : Option Val) (nodes : List SchemaNode)

/-- The node's bound type. -/
def SchemaNode.typ : SchemaNode → Typ
  | .mk t _ _ _ => t

/-- The node's name. -/
def SchemaNode.name : SchemaNode → String
  | .mk _ n _ _ => n

/-- The node's default value, `none` for the `_missing` sentinel. -/
def SchemaNode.default : SchemaNode → Option Val
  | .mk _ _ d _ => d

/-- The node's ordered child list. -/
def SchemaNode.nodes : SchemaNode → List SchemaNode
  | .mk _ _ _ ns => ns

/-- Property `SchemaNode.required`: true iff no default was supplied. -/
def SchemaNode.required (n : SchemaNode) : Bool := n.default.isNone

/-- The failure tree `colander.Invalid`: the schema node it concerns, an optional message,
an optional position (set by a positional or mapping parent when
aggregating), and the ordered child failures added via `add`. The `parent`
back-pointer of the Python class is recovered from the tree structure:
in every path of `paths()`, an exception's parent is its predecessor. -/
inductive Invalid where
  | mk (node : SchemaNode) (msg : Option String) (pos : Option Nat)
      (children : List Invalid)

/-- The schema node the failure concerns. -/
def Invalid.node : Invalid → SchemaNode
  | .mk n _ _ _ => n

/-- The failure message, if any. -/
def Invalid.msg : Invalid → Option String
  | .mk _ m _ _ => m

/-- The position tag, if any. -/
def Invalid.pos : Invalid → Option Nat
  | .mk _ _ p _ => p

/-- The child failures, in the order they were added. -/
def Invalid.children : Invalid → List Invalid
  | .mk _ _ _ cs => cs

/-- Assignment `e.pos = num`, as performed by the composite types before `error.add(e)`. -/
def Invalid.setPos (num : Nat) : Invalid → Invalid
  | .mk n m _ cs => .mk n m (some num) cs

/-- Outcome of a conversion: a value, or an uncaught Python exception. An
`Invalid` is caught by the composites' `except Invalid` handlers;
`indexError` models the `IndexError` escaping `node.nodes[0]` when a
`Sequence` node with no children converts a nonempty sequence. -/
inductive Err where
  | invalid (e : Invalid)
  | indexError

/-- Conversion direction: `deserialize` (inbound) or `serialize` (outbound). -/
inductive Dir where
  | deser
  | ser

/-- Coercion `Sequence._validate`: an iterable that is not a mapping is listed; a
scalar is wrapped in a one-element list when `accept_scalar` is set, and is
rejected as "not iterable" otherwise. -/
def seqCoerce (acceptScalar : Bool) (node : SchemaNode) (value : Val) :
    Except Invalid (List Val) :=
  if hasIter value && !(hasGet value) then .ok (pyList value)
  else if acceptScalar then .ok [value]
  else .error (.mk node (some (pyRepr value ++ " is not iterable")) none [])

/-- The arity-mismatch message of `Tuple._validate`. -/
def tupleArityMsg (value : Val) (nodelen valuelen : Nat) : String :=
  pyStr value ++ " has an incorrect number of elements (expected " ++
    natToStr nodelen ++ ", was " ++ natToStr valuelen ++ ")"

mutual

/-- The conversion driver: `SchemaNode.deserialize` / `SchemaNode.serialize`
(for a node without a validator, i.e. `self.typ.deserialize(self, value)` /
`self.typ.serialize(self, value)`), dispatched on the node's type.

* `Mapping._impl`: coerce to a dict, process the declared children
  (`mapChildren`), then apply the `unknown_keys` policy: `raise` fails on a
  nonempty remainder (note: this happens before the aggregated child error
  is raised, so it takes precedence over it), `preserve` copies the
  remainder into the result; finally the aggregated error, if any, is
  raised, else the result dict is returned.
* `Sequence._impl`: coerce via `seqCoerce`, convert every element with the
  first child node (`seqChildren`), aggregate failures by position.
* `Tuple._impl`: require an iterable whose length equals the number of
  children, convert positionally (`tupleChildren`), aggregate failures.
* `Integer`: `int(value)` / `str(int(value))`, failing with "is not a
  number" on non-numeric input.
* `Boolean`: case-insensitive comparison of `str(value)` with
  `'false'`/`'0'` inbound; `value and 'true' or 'false'` outbound. -/
def conv : Dir → SchemaNode → Val → Except Err Val
  | dir, .mk (.mapping uk) nm df nodes, value =>
    match dictCoerce value with
    | none =>
      .error (.invalid (.mk (.mk (.mapping uk) nm df nodes)
        (some (pyRepr value ++ " is not a mapping type")) none []))
    | some d =>
      match mapChildren dir nodes 0 d with
      | none => .error .indexError
      | some (entries, leftover, errs) =>
        match uk, leftover with
        | .raise, _ :: _ =>
          .error (.invalid (.mk (.mk (.mapping uk) nm df nodes)
            (some ("Unrecognized keys in mapping: " ++ pyRepr (.map leftover)))
            none []))
        | _, _ =>
          let result :=
            match uk with
            | .preserve => alUpdate (alOfPairs entries) leftover
            | _ => alOfPairs entries
          match errs with
          | [] => .ok (.map result)
          | _ => .error (.invalid (.mk (.mk (.mapping uk) nm df nodes)
              none none errs))
  | dir, .mk (.sequence a) nm df nodes, value =>
    match seqCoerce a (.mk (.sequence a) nm df nodes) value with
    | .error e => .error (.invalid e)
    | .ok elems =>
      match seqChildren dir nodes 0 elems with
      | none => .error .indexError
      | some (res, errs) =>
        match errs with
        | [] => .ok (.list res)
        | _ =>
          .error (.invalid (.mk (.mk (.sequence a) nm df nodes) none none errs))
  | dir, .mk .tuple nm df nodes, value =>
    if hasIter value then
      let xs := pyList value
      if xs.length = nodes.length then
        match tupleChildren dir nodes xs 0 with
        | none => .error .indexError
        | some (res, errs) =>
          match errs with
          | [] => .ok (.tuple res)
          | _ => .error (.invalid (.mk (.mk .tuple nm df nodes) none none errs))
      else
        .error (.invalid (.mk (.mk .tuple nm df nodes)
          (some (tupleArityMsg value nodes.length xs.length)) none []))
    else
      .error (.invalid (.mk (.mk .tuple nm df nodes)
        (some (pyRepr value ++ " is not iterable")) none []))
  | .deser, .mk .integer nm df nodes, value =>
    match pyIntCoerce value with
    | some n => .ok (.int n)
    | none => .error (.invalid (.mk (.mk .integer nm df nodes)
        (some (pyRepr value ++ " is not a number")) none []))
  | .ser, .mk .integer nm df nodes, value =>
    match pyIntCoerce value with
    | some n => .ok (.str (intToStr n))
    | none => .error (.invalid (.mk (.mk .integer nm df nodes)
        (some (pyRepr value ++ " is not a number")) none []))
  | .deser, .mk .boolean _ _ _, value =>
    let s := asciiLower (pyStr value)
    .ok (.bool (!(s == "false" || s == "0")))
  | .ser, .mk .boolean _ _ _, value =>
    .ok (.str (if pyTruthy value then "true" else "false"))
termination_by _ node _ => (sizeOf node, 0, 0)

/-- One iteration of `Mapping._impl`'s child loop for child `sub`, applied
to `subval = value.pop(name, _missing)` (`none` models `_missing`):
* missing and required: the "required but missing" failure;
* missing and optional: the default itself inbound (`subnode.default`,
  no recursion), `subnode.serialize(subnode.default)` outbound;
* present: recurse into the child's own conversion.
The outer `none` models an uncaught non-`Invalid` exception. -/
def stepResult (dir : Dir) (sub : SchemaNode) (sv : Option Val) :
    Option (Except Invalid Val) :=
  match sv with
  | none =>
    match sub.default with
    | none =>
      some (.error (.mk sub
        (some (pyRepr (.str sub.name) ++ " is required but missing")) none []))
    | some dflt =>
      match dir with
      | .deser => some (.ok dflt)
      | .ser =>
        match conv .ser sub dflt with
        | .ok w => some (.ok w)
        | .error (.invalid e) => some (.error e)
        | .error .indexError => none
  | some sv1 =>
    match conv dir sub sv1 with
    | .ok w => some (.ok w)
    | .error (.invalid e) => some (.error e)
    | .error .indexError => none
termination_by (sizeOf sub, 1, 0)

/-- The `Mapping._impl` loop over the declared children: each child pops its
entry from the remaining input dict and is processed by `stepResult`;
successes are collected into the result entries in declaration order,
failures are tagged with the declaration index and collected in order.
Returns (result entries, remaining input entries, collected failures), or
`none` if a non-`Invalid` exception escaped. -/
def mapChildren (dir : Dir) (nodes : List SchemaNode) (num : Nat) (d : Dict) :
    Option (List (String × Val) × Dict × List Invalid) :=
  match nodes with
  | [] => some ([], d, [])
  | sub :: rest =>
    match stepResult dir sub (alGet sub.name d) with
    | none => none
    | some out =>
      match mapChildren dir rest (num + 1) (alRemove sub.name d) with
      | none => none
      | some (entries, leftover, errs) =>
        match out with
        | .ok w => some ((sub.name, w) :: entries, leftover, errs)
        | .error e => some (entries, leftover, e.setPos num :: errs)
termination_by (sizeOf nodes, 2, 0)

/-- The `Sequence._impl` loop: every element of the coerced list is converted
with `node.nodes[0]`; failures are tagged with the element position.
`none` models the `IndexError` of `nodes[0]` on an empty child list. -/
def seqChildren (dir : Dir) (nodes : List SchemaNode) (num : Nat)
    (elems : List Val) : Option (List Val × List Invalid) :=
  match elems with
  | [] => some ([], [])
  | e :: rest =>
    match nodes with
    | [] => none
    | t :: ts =>
      match conv dir t e with
      | .error .indexError => none
      | .error (.invalid err) =>
        (seqChildren dir (t :: ts) (num + 1) rest).map
          (fun p => (p.1, err.setPos num :: p.2))
      | .ok w =>
        (seqChildren dir (t :: ts) (num + 1) rest).map
          (fun p => (w :: p.1, p.2))
termination_by (sizeOf nodes, 2, elems.length)

/-- The `Tuple._impl` loop: child `num` converts `value[num]`; failures are
tagged with the position. Called with equally long lists. -/
def tupleChildren (dir : Dir) (nodes : List SchemaNode) (xs : List Val)
    (num : Nat) : Option (List Val × List Invalid) :=
  match nodes, xs with
  | [], _ => some ([], [])
  | _ :: _, [] => none
  | sub :: rest, x :: xrest =>
    match conv dir sub x with
    | .error .indexError => none
    | .error (.invalid err) =>
      (tupleChildren dir rest xrest (num + 1)).map
        (fun p => (p.1, err.setPos num :: p.2))
    | .ok w =>
      (tupleChildren dir rest xrest (num + 1)).map
        (fun p => (w :: p.1, p.2))
termination_by (sizeOf nodes, 2, 0)

end

/-- Claim-side reference for the aggregation pattern of `Mapping._impl`
("collect every child failure before raising; never abort on the first
child error"): every declared child is judged independently against the
original input dict (no threading of the popped dict), and the failures,
tagged with their declaration index, are collected in declaration order. -/
def specErrs (dir : Dir) (nodes : List SchemaNode) (num : Nat) (d : Dict) :
    Option (List Invalid) :=
  match nodes with
  | [] => some []
  | sub :: rest =>
    match stepResult dir sub (alGet sub.name d) with
    | none => none
    | some (.ok _) => specErrs dir rest (num + 1) d
    | some (.error e) =>
      (specErrs dir rest (num + 1) d).map (fun es => e.setPos num :: es)

mutual

/-- Traversal `Invalid.paths`: one root-to-leaf path per leaf failure node, in
depth-first order; a node with no children is a leaf and yields the
singleton path of itself. -/
def Invalid.paths : Invalid → List (List Invalid)
  | .mk n m p [] => [[.mk n m p []]]
  | .mk n m p (c :: cs) => pathsList (.mk n m p (c :: cs)) (c :: cs)
termination_by inv => (sizeOf inv, 1)
decreasing_by all_goals (simp_wf; try omega)

/-- Paths through each child of `parent`, prefixed with `parent`. -/
def pathsList (parent : Invalid) : List Invalid → List (List Invalid)
  | [] => []
  | c :: rest => (Invalid.paths c).map (parent :: ·) ++ pathsList parent rest
termination_by cs => (sizeOf cs, 0)
decreasing_by all_goals (simp_wf; try omega)

end

/-- Python `str(self.pos)` (`str(None)` is `'None'`). -/
def strOfPos : Option Nat → String
  | some n => natToStr n
  | none => "None"

/-- The `Invalid._keyname` computation, with the parent recovered from the path: the
position as a string if the parent exists and its schema node's type is
positional, else the node's name. -/
def keynameAt (parent : Option Invalid) (exc : Invalid) : String :=
  match parent with
  | some pe => if pe.node.typ.positional then strOfPos exc.pos else exc.node.name
  | none => exc.node.name

/-- The key segments of a path: each element's `_keyname`, skipping falsy
(empty) ones, as in `keyname and keyparts.append(keyname)`. -/
def pathKey (parent : Option Invalid) : List Invalid → List String
  | [] => []
  | exc :: rest =>
    (if keynameAt parent exc = "" then [] else [keynameAt parent exc]) ++
      pathKey (some exc) rest

/-- The messages along a path, skipping falsy (absent or empty) ones, as in
`exc.msg and msgs.append(exc.msg)`. -/
def pathMsgs : List Invalid → List String
  | [] => []
  | exc :: rest =>
    (match exc.msg with
     | some m => if m = "" then [] else [m]
     | none => []) ++ pathMsgs rest

/-- The `errors` dict accumulation of `Invalid.asdict`: one entry per path,
later paths with the same key overwriting earlier ones. -/
def asdictFold : List (List Invalid) → List (String × String) →
    List (String × String)
  | [], errs => errs
  | p :: rest, errs =>
    asdictFold rest (alInsert (joinDot (pathKey none p)) (joinSemi (pathMsgs p)) errs)

/-- The report `Invalid.asdict`: the error report, keyed by the `.`-joined key
segments of each leaf path, valued by the `; `-joined messages along it. -/
def Invalid.asdict (inv : Invalid) : List (String × String) :=
  asdictFold inv.paths []

mutual

/-- Valid internal values for a node tree whose composites are Mapping,
Sequence or Tuple and whose leaves are total scalar converters (Boolean):
* for a Mapping node, a dict holding exactly the declared child names (in
  declaration order — the canonical representative of the Python dict,
  whose equality is key-set based), with distinct child names and each
  entry valid for its child;
* for a Sequence node (which must have a template child), a list of values
  valid for the template;
* for a Tuple node, a tuple of matching arity, elementwise valid;
* for a Boolean leaf, a boolean.
Integer leaves are not total (they fail on non-numeric input) and are
excluded, as the claim restricts leaves to total scalar converters. -/
def Valid : SchemaNode → Val → Prop
  | .mk (.mapping _) _ _ nodes, v =>
    (nodes.map SchemaNode.name).Nodup ∧
    ∃ vals, v = .map ((nodes.map SchemaNode.name).zip vals) ∧ ValidZip nodes vals
  | .mk (.sequence _) _ _ nodes, v =>
    match nodes with
    | [] => False
    | t :: _ => ∃ xs, v = .list xs ∧ ValidEach t xs
  | .mk .tuple _ _ nodes, v => ∃ xs, v = .tuple xs ∧ ValidZip nodes xs
  | .mk .boolean _ _ _, v => ∃ b, v = .bool b
  | .mk .integer _ _ _, _ => False
termination_by node _ => (sizeOf node, 0, 0)

/-- Elementwise validity of a value list against a node list of the same
length. -/
def ValidZip : List SchemaNode → List Val → Prop
  | [], [] => True
  | n :: ns, x :: xs => Valid n x ∧ ValidZip ns xs
  | _, _ => False
termination_by ns _ => (sizeOf ns, 2, 0)

/-- Validity of every element of a list against a single template node. -/
def ValidEach (t : SchemaNode) : List Val → Prop
  | [] => True
  | x :: xs => Valid t x ∧ ValidEach t xs
termination_by xs => (sizeOf t, 1, xs.length)

end

/-- Observational agreement of two conversion outcomes: equal values on
success, error reports (`asdict`) equal on failure, and agreeing uncaught
exceptions. -/
def sameOutcome : Except Err Val → Except Err Val → Prop
  | .ok a, .ok b => a = b
  | .error (.invalid e1), .error (.invalid e2) => e1.asdict = e2.asdict
  | .error .indexError, .error .indexError => True
  | _, _ => False

/-- Split a character list on `'.'` (the segments of a report key, as
`key.split('.')` would produce them). -/
def splitDots : List Char → List (List Char)
  | [] => [[]]
  | c :: rest =>
    if c = '.' then [] :: splitDots rest
    else
      match splitDots rest with
      | [] => [[c]]
      | s :: ss => (c :: s) :: ss

mutual

/-- No schema node mentioned in the failure tree has a `'.'` in its name. -/
def DotFreeInv : Invalid → Prop
  | .mk n _ _ cs => '.' ∉ n.name.data ∧ DotFreeList cs
termination_by inv => (sizeOf inv, 1)
decreasing_by all_goals (simp_wf; try omega)

/-- Predicate `DotFreeInv` for every failure in a list. -/
def DotFreeList : List Invalid → Prop
  | [] => True
  | c :: cs => DotFreeInv c ∧ DotFreeList cs
termination_by cs => (sizeOf cs, 0)
decreasing_by all_goals (simp_wf; try omega)

end

theorem alRemove_cons {α : Type} (k ek : String) (ev : α)
    (rest : List (String × α)) :
    alRemove k ((ek, ev) :: rest) =
      if ek = k then alRemove k rest else (ek, ev) :: alRemove k rest := by
  simp only [alRemove, List.filter_cons]
  by_cases h : ek = k <;> simp [h]

theorem alGet_remove_ne {α : Type} {k k2 : String} (h : k ≠ k2) :
    ∀ d : List (String × α), alGet k (alRemove k2 d) = alGet k d := by
  intro d
  induction d with
  | nil => rfl
  | cons e rest ih =>
    obtain ⟨ek, ev⟩ := e
    rw [alRemove_cons]
    by_cases he : ek = k2
    · rw [if_pos he, ih]
      have hk : ¬(k = ek) := fun hh => h (hh.trans he)
      simp [alGet, hk]
    · rw [if_neg he]
      by_cases hke : k = ek
      · simp [alGet, hke]
      · simp [alGet, hke, ih]

theorem alRemove_not_mem {α : Type} {k : String} :
    ∀ d : List (String × α), k ∉ d.map Prod.fst → alRemove k d = d := by
  intro d hmem
  rw [alRemove, List.filter_eq_self]
  intro e he
  simp only [decide_eq_true_eq]
  intro hek
  exact hmem (hek ▸ List.mem_map_of_mem Prod.fst he)

theorem alInsert_not_mem {α : Type} {k : String} (v : α) :
    ∀ d : List (String × α), k ∉ d.map Prod.fst → alInsert k v d = d ++ [(k, v)] := by
  intro d
  induction d with
  | nil => intro _; rfl
  | cons e rest ih =>
    obtain ⟨ek, ev⟩ := e
    intro hmem
    simp only [List.map_cons, List.mem_cons] at hmem
    push_neg at hmem
    simp only [alInsert, hmem.1, if_false, List.cons_append, List.cons.injEq, true_and]
    exact ih hmem.2

theorem alOfPairs_foldl_nodup {α : Type} :
    ∀ (ps acc : List (String × α)),
      (∀ p ∈ ps, p.1 ∉ acc.map Prod.fst) → (ps.map Prod.fst).Nodup →
      ps.foldl (fun d e => alInsert e.1 e.2 d) acc = acc ++ ps := by
  intro ps
  induction ps with
  | nil => intro acc _ _; simp
  | cons p rest ih =>
    intro acc hdisj hnd
    simp only [List.foldl_cons]
    rw [alInsert_not_mem p.2 acc (hdisj p (by simp))]
    have hnd2 : (rest.map Prod.fst).Nodup := by
      simp only [List.map_cons, List.nodup_cons] at hnd
      exact hnd.2
    have hp1 : p.1 ∉ rest.map Prod.fst := by
      simp only [List.map_cons, List.nodup_cons] at hnd
      exact hnd.1
    rw [ih (acc ++ [p]) ?_ hnd2]
    · simp
    · intro q hq
      simp only [List.map_append, List.mem_append]
      push_neg
      refine ⟨hdisj q (by simp [hq]), ?_⟩
      simp only [List.map_cons, List.map_nil, List.mem_singleton]
      intro hqp
      exact hp1 (hqp ▸ (List.mem_map_of_mem Prod.fst hq))

theorem alOfPairs_nodup {α : Type} (ps : List (String × α))
    (hnd : (ps.map Prod.fst).Nodup) : alOfPairs ps = ps := by
  have := alOfPairs_foldl_nodup ps [] (by simp) hnd
  simpa [alOfPairs] using this

theorem alUpdate_nil {α : Type} (d : List (String × α)) : alUpdate d [] = d := rfl

/-- Claim C8: Boolean inbound conversion is total and never fails: it
returns `false` exactly when the lower-cased string form of the value is
`"false"` or `"0"`, and `true` otherwise; Boolean outbound conversion
always renders the string `"true"` or `"false"` (by truthiness of the
value, `value and 'true' or 'false'`). -/
theorem C8_boolean_total (nm : String) (df : Option Val)
    (nodes : List SchemaNode) (v : Val) :
    conv .deser (.mk .boolean nm df nodes) v =
      .ok (.bool (!(asciiLower (pyStr v) == "false" || asciiLower (pyStr v) == "0"))) ∧
    conv .ser (.mk .boolean nm df nodes) v =
      .ok (.str (if pyTruthy v then "true" else "false")) := by
  constructor <;> simp [conv]

/-- Claim C5: a Sequence node given a non-iterable input fails with the
"is not iterable" message when `accept_scalar` is false; with
`accept_scalar` true the same input is wrapped in a one-element list, so
inbound conversion succeeds with `[w]` whenever the template child's
inbound conversion of the value succeeds with `w`. -/
theorem C5_sequence_scalar (dir : Dir) (nm : String) (df : Option Val)
    (nodes : List SchemaNode) (t : SchemaNode) (ts : List SchemaNode)
    (v w : Val) (hv : hasIter v = false) :
    (conv dir (.mk (.sequence false) nm df nodes) v =
      .error (.invalid (.mk (.mk (.sequence false) nm df nodes)
        (some (pyRepr v ++ " is not iterable")) none []))) ∧
    (conv .deser t v = .ok w →
      conv .deser (.mk (.sequence true) nm df (t :: ts)) v = .ok (.list [w])) := by
  constructor
  · simp [conv, seqCoerce, hv]
  · intro hw
    simp [conv, seqCoerce, hv, seqChildren, hw]

theorem C5_witness :
    hasIter (.int 7) = false ∧
    ((conv .deser (.mk (.sequence false) "" none [.mk .boolean "b" none []])
        (.int 7) =
      .error (.invalid (.mk (.mk (.sequence false) "" none [.mk .boolean "b" none []])
        (some "7 is not iterable") none []))) ∧
     (conv .deser (.mk .boolean "b" none []) (.int 7) = .ok (.bool true) →
      conv .deser (.mk (.sequence true) "" none [.mk .boolean "b" none []])
        (.int 7) = .ok (.list [.bool true]))) := by
  refine ⟨by decide, ?_⟩
  have h := C5_sequence_scalar .deser "" none [.mk .boolean "b" none []]
    (.mk .boolean "b" none []) [] (.int 7) (.bool true) (by decide)
  convert h using 3
  simp [pyRepr, intToStr, natToStr, natDigitsAux, digitChar]

/-- Claim C6: a Tuple node whose declared child count differs from the
input's element count fails with a message stating the expected and the
actual count; the failure carries no child failures and is produced by
`Tuple._validate` before any element is handed to a child node. -/
theorem C6_tuple_arity (dir : Dir) (nm : String) (df : Option Val)
    (nodes : List SchemaNode) (v : Val) (hiter : hasIter v = true)
    (hlen : (pyList v).length ≠ nodes.length) :
    conv dir (.mk .tuple nm df nodes) v =
      .error (.invalid (.mk (.mk .tuple nm df nodes)
        (some (tupleArityMsg v nodes.length (pyList v).length)) none [])) := by
  simp [conv, hiter, hlen]

theorem C6_witness :
    conv .deser
      (.mk .tuple "" none
        [.mk .boolean "a" none [], .mk .boolean "b" none [], .mk .boolean "c" none []])
      (.list [.str "x", .str "y"]) =
    .error (.invalid (.mk (.mk .tuple "" none
        [.mk .boolean "a" none [], .mk .boolean "b" none [], .mk .boolean "c" none []])
      (some "['x', 'y'] has an incorrect number of elements (expected 3, was 2)")
      none [])) := by
  have h := C6_tuple_arity .deser "" none
    [.mk .boolean "a" none [], .mk .boolean "b" none [], .mk .boolean "c" none []]
    (.list [.str "x", .str "y"]) (by decide) (by decide)
  convert h using 5
  simp [tupleArityMsg, pyStr, pyRepr, reprJoin, natToStr, natDigitsAux, digitChar,
    pyList]

/-- Claim C4: for a Mapping node with one declared Integer child `"x"` and
the input `{'x': '1', 'y': '2'}`: policy `ignore` yields `{'x': 1}`;
policy `raise` fails with the unrecognized-keys message naming `y`; policy
`preserve` yields `{'x': 1, 'y': '2'}` with the unknown entry copied
verbatim. -/
theorem C4_unknown_key_policies :
    (conv .deser (.mk (.mapping .ignore) "" none [.mk .integer "x" none []])
        (.map [("x", .str "1"), ("y", .str "2")]) = .ok (.map [("x", .int 1)])) ∧
    (conv .deser (.mk (.mapping .raise) "" none [.mk .integer "x" none []])
        (.map [("x", .str "1"), ("y", .str "2")]) =
      .error (.invalid (.mk (.mk (.mapping .raise) "" none [.mk .integer "x" none []])
        (some "Unrecognized keys in mapping: \x7b'y': '2'\x7d") none []))) ∧
    (conv .deser (.mk (.mapping .preserve) "" none [.mk .integer "x" none []])
        (.map [("x", .str "1"), ("y", .str "2")]) =
      .ok (.map [("x", .int 1), ("y", .str "2")])) := by
  refine ⟨?_, ?_, ?_⟩ <;>
    simp [conv, mapChildren, stepResult, alGet, alRemove, alOfPairs, alInsert,
      alUpdate, dictCoerce, pyIntCoerce, parseIntStr, parseDigits, parseDigits.go,
      digitVal, isPySpace, SchemaNode.name, SchemaNode.default, List.filter,
      pyRepr, reprPairs]

/-- Claim C7: in the error report, a failing child of a positionally
addressed parent is keyed by the string form of its position, not by its
name: a Sequence of Integer nodes (whatever the template's name `s`) given
`['1', 'bad', '3']` fails on element 1, and the report of the raised
failure is keyed `"1"`. -/
theorem C7_positional_keys (s : String) :
    conv .deser (.mk (.sequence false) "" none [.mk .integer s none []])
        (.list [.str "1", .str "bad", .str "3"]) =
      .error (.invalid (.mk (.mk (.sequence false) "" none [.mk .integer s none []])
        none none
        [.mk (.mk .integer s none []) (some "'bad' is not a number") (some 1) []])) ∧
    Invalid.asdict (.mk (.mk (.sequence false) "" none [.mk .integer s none []])
        none none
        [.mk (.mk .integer s none []) (some "'bad' is not a number") (some 1) []]) =
      [("1", "'bad' is not a number")] := by
  constructor
  · simp [conv, seqChildren, seqCoerce, hasIter, hasGet, pyList, Invalid.setPos,
      pyIntCoerce, parseIntStr, parseDigits, parseDigits.go, digitVal, isPySpace,
      pyRepr]
  · simp [Invalid.asdict, Invalid.paths, pathsList, asdictFold, pathKey, pathMsgs,
      keynameAt, Invalid.node, Invalid.msg, Invalid.pos, SchemaNode.typ,
      SchemaNode.name, Typ.positional, strOfPos, natToStr, natDigitsAux, digitChar,
      joinDot, joinSemi, alInsert]

/-- Claim C2 is false as stated: outbound conversion of a Mapping with an
optional child absent from the input recurses into the child's converter
(`subnode.serialize(subnode.default)`) and can fail. Concretely, an
optional Integer child `"x"` with default `'abc'` makes `serialize({})`
fail, although the claim says the sentinel-plus-optional case does not
recurse and does not fail in both directions. -/
theorem C2_counterexample :
    conv .ser (.mk (.mapping .ignore) "" none
        [.mk .integer "x" (some (.str "abc")) []]) (.map []) =
      .error (.invalid (.mk (.mk (.mapping .ignore) "" none
        [.mk .integer "x" (some (.str "abc")) []]) none none
        [.mk (.mk .integer "x" (some (.str "abc")) [])
          (some "'abc' is not a number") (some 0) []])) := by
  simp [conv, mapChildren, stepResult, alGet, alRemove, alOfPairs, alInsert,
    dictCoerce, pyIntCoerce, parseIntStr, parseDigits, parseDigits.go, digitVal,
    isPySpace, SchemaNode.name, SchemaNode.default, Invalid.setPos, pyRepr]

/-- Claim C2, amended: for a Mapping node and an optional declared child
absent from the input, inbound conversion uses the node's default as the
result entry without recursing into the child's converter and without
failing; outbound conversion instead serializes the default by recursing
into the child's own serialization, succeeding with its output or failing
with its failure. -/
theorem C2_default_handling (uk : UnknownKeys) (mnm : String) (mdf : Option Val)
    (sub : SchemaNode) (d : Val) (hd : sub.default = some d) :
    stepResult .deser sub none = some (.ok d) ∧
    stepResult .ser sub none =
      (match conv .ser sub d with
       | .ok w => some (.ok w)
       | .error (.invalid e) => some (.error e)
       | .error .indexError => none) ∧
    conv .deser (.mk (.mapping uk) mnm mdf [sub]) (.map []) =
      .ok (.map [(sub.name, d)]) ∧
    conv .ser (.mk (.mapping uk) mnm mdf [sub]) (.map []) =
      (match conv .ser sub d with
       | .ok w => .ok (.map [(sub.name, w)])
       | .error (.invalid e) =>
         .error (.invalid (.mk (.mk (.mapping uk) mnm mdf [sub]) none none
           [e.setPos 0]))
       | .error .indexError => .error .indexError) := by
  refine ⟨by simp [stepResult, hd], by simp [stepResult, hd], ?_, ?_⟩
  · cases uk <;>
      simp [conv, mapChildren, stepResult, hd, dictCoerce, alGet, alRemove,
        alOfPairs, alInsert, alUpdate, List.filter]
  · match hc : conv .ser sub d with
    | .ok w =>
      cases uk <;>
        simp [conv, mapChildren, stepResult, hd, hc, dictCoerce, alGet, alRemove,
          alOfPairs, alInsert, alUpdate, List.filter]
    | .error (.invalid e) =>
      cases uk <;>
        simp [conv, mapChildren, stepResult, hd, hc, dictCoerce, alGet, alRemove,
          alOfPairs, alInsert, alUpdate, List.filter]
    | .error .indexError =>
      cases uk <;>
        simp [conv, mapChildren, stepResult, hd, hc, dictCoerce, alGet, alRemove,
          alOfPairs, alInsert, alUpdate, List.filter]

theorem C2_witness :
    (SchemaNode.mk .boolean "x" (some (.bool true)) []).default = some (.bool true) ∧
    (conv .deser (.mk (.mapping .ignore) "" none
        [.mk .boolean "x" (some (.bool true)) []]) (.map []) =
      .ok (.map [("x", .bool true)])) := by
  have h := C2_default_handling .ignore "" none
    (.mk .boolean "x" (some (.bool true)) []) (.bool true) (by simp [SchemaNode.default])
  exact ⟨by simp [SchemaNode.default], by simpa [SchemaNode.name] using h.2.2.1⟩

theorem specErrs_congr (dir : Dir) :
    ∀ (nodes : List SchemaNode) (num : Nat) (d d2 : Dict),
      (∀ sub ∈ nodes, alGet sub.name d = alGet sub.name d2) →
      specErrs dir nodes num d = specErrs dir nodes num d2 := by
  intro nodes
  induction nodes with
  | nil => intro num d d2 _; rfl
  | cons sub rest ih =>
    intro num d d2 h
    have hs : alGet sub.name d = alGet sub.name d2 := h sub (by simp)
    have hr : ∀ s2 ∈ rest, alGet s2.name d = alGet s2.name d2 :=
      fun s2 hs2 => h s2 (by simp [hs2])
    simp only [specErrs, hs, ih (num + 1) d d2 hr]

theorem mapChildren_specErrs (dir : Dir) :
    ∀ (nodes : List SchemaNode) (num : Nat) (d : Dict)
      (es : List (String × Val)) (lo : Dict) (errs : List Invalid),
      (nodes.map SchemaNode.name).Nodup →
      mapChildren dir nodes num d = some (es, lo, errs) →
      specErrs dir nodes num d = some errs := by
  intro nodes
  induction nodes with
  | nil =>
    intro num d es lo errs _ h
    simp only [mapChildren, Option.some.injEq, Prod.mk.injEq] at h
    simp [specErrs, ← h.2.2]
  | cons sub rest ih =>
    intro num d es lo errs hnd hmc
    simp only [List.map_cons, List.nodup_cons] at hnd
    have hcongr : specErrs dir rest (num + 1) d =
        specErrs dir rest (num + 1) (alRemove sub.name d) := by
      apply specErrs_congr
      intro s2 hs2
      have hne : s2.name ≠ sub.name := by
        intro hh
        exact hnd.1 (hh ▸ List.mem_map_of_mem SchemaNode.name hs2)
      exact (alGet_remove_ne hne d).symm
    simp only [mapChildren] at hmc
    simp only [specErrs]
    cases hstep : stepResult dir sub (alGet sub.name d) with
    | none => rw [hstep] at hmc; exact absurd hmc (by simp)
    | some out =>
      rw [hstep] at hmc
      cases hrec : mapChildren dir rest (num + 1) (alRemove sub.name d) with
      | none => rw [hrec] at hmc; exact absurd hmc (by simp)
      | some trip =>
        rw [hrec] at hmc
        obtain ⟨es2, lo2, errs2⟩ := trip
        have hihs := ih (num + 1) (alRemove sub.name d) es2 lo2 errs2 hnd.2 hrec
        cases out with
        | ok w =>
          simp only [Option.some.injEq, Prod.mk.injEq] at hmc
          rw [hcongr, hihs, hmc.2.2]
        | error e =>
          simp only [Option.some.injEq, Prod.mk.injEq] at hmc
          rw [hcongr, hihs]
          simp [← hmc.2.2]

/-- Claim C1 is false as stated in one configuration: under the `raise`
unknown-keys policy, when a declared child fails and unrecognized keys
remain, the failure raised is the unrecognized-keys `Invalid` (with no
children), not the aggregated failure containing the collected child
failure: here child `"x"` does fail (first conjunct) yet the raised
failure carries no child failures (second conjunct). -/
theorem C1_counterexample :
    (mapChildren .deser [.mk .integer "x" none []] 0
        [("x", .str "bad"), ("y", .str "1")] =
      some ([], [("y", .str "1")],
        [.mk (.mk .integer "x" none []) (some "'bad' is not a number") (some 0) []])) ∧
    conv .deser (.mk (.mapping .raise) "" none [.mk .integer "x" none []])
        (.map [("x", .str "bad"), ("y", .str "1")]) =
      .error (.invalid (.mk (.mk (.mapping .raise) "" none [.mk .integer "x" none []])
        (some "Unrecognized keys in mapping: \x7b'y': '1'\x7d") none [])) := by
  constructor <;>
    simp [conv, mapChildren, stepResult, alGet, alRemove, alOfPairs, alInsert,
      dictCoerce, pyIntCoerce, parseIntStr, parseDigits, parseDigits.go, digitVal,
      isPySpace, SchemaNode.name, SchemaNode.default, List.filter, Invalid.setPos,
      pyRepr, reprPairs]

/-- Claim C1, amended: in every Mapping conversion (either direction) with
distinct child names, all declared children are processed and every child
failure is collected: the failures attached to the aggregated error are
exactly those obtained by judging each declared child independently
against the input (`specErrs`), in declaration order, tagged with their
declaration index. The aggregated failure containing them is the failure
raised, after all children and the unknown-keys check are processed —
unless the policy is `raise` and unrecognized keys remain, in which case
the unrecognized-keys failure is raised instead and the collected child
failures are discarded. -/
theorem C1_mapping_aggregation (dir : Dir) (uk : UnknownKeys) (nm : String)
    (df : Option Val) (nodes : List SchemaNode) (value : Val) (d : Dict)
    (es : List (String × Val)) (lo : Dict) (errs : List Invalid)
    (hco : dictCoerce value = some d)
    (hnd : (nodes.map SchemaNode.name).Nodup)
    (hmc : mapChildren dir nodes 0 d = some (es, lo, errs)) :
    specErrs dir nodes 0 d = some errs ∧
    (errs ≠ [] → (uk = .raise → lo = []) →
      conv dir (.mk (.mapping uk) nm df nodes) value =
        .error (.invalid (.mk (.mk (.mapping uk) nm df nodes) none none errs))) := by
  refine ⟨mapChildren_specErrs dir nodes 0 d es lo errs hnd hmc, ?_⟩
  intro hne hraise
  cases uk with
  | raise =>
    have hlo := hraise rfl
    subst hlo
    cases errs with
    | nil => exact absurd rfl hne
    | cons e es2 => simp [conv, hco, hmc]
  | ignore =>
    cases errs with
    | nil => exact absurd rfl hne
    | cons e es2 => simp [conv, hco, hmc]
  | preserve =>
    cases errs with
    | nil => exact absurd rfl hne
    | cons e es2 => simp [conv, hco, hmc]

theorem C1_witness :
    specErrs .deser [.mk .integer "x" none [], .mk .integer "y" none []] 0
        [("x", .str "bad")] =
      some [.mk (.mk .integer "x" none []) (some "'bad' is not a number") (some 0) [],
            .mk (.mk .integer "y" none []) (some "'y' is required but missing") (some 1) []] ∧
    conv .deser (.mk (.mapping .ignore) "" none
        [.mk .integer "x" none [], .mk .integer "y" none []])
        (.map [("x", .str "bad")]) =
      .error (.invalid (.mk (.mk (.mapping .ignore) "" none
        [.mk .integer "x" none [], .mk .integer "y" none []]) none none
        [.mk (.mk .integer "x" none []) (some "'bad' is not a number") (some 0) [],
         .mk (.mk .integer "y" none []) (some "'y' is required but missing") (some 1) []])) := by
  have h := C1_mapping_aggregation .deser .ignore "" none
    [.mk .integer "x" none [], .mk .integer "y" none []]
    (.map [("x", .str "bad")]) [("x", .str "bad")] [] []
    [.mk (.mk .integer "x" none []) (some "'bad' is not a number") (some 0) [],
     .mk (.mk .integer "y" none []) (some "'y' is required but missing") (some 1) []]
    rfl (by decide)
    (by simp [conv, mapChildren, stepResult, alGet, alRemove, alOfPairs, alInsert,
      pyIntCoerce, parseIntStr, parseDigits, parseDigits.go, digitVal, isPySpace,
      SchemaNode.name, SchemaNode.default, List.filter, Invalid.setPos, pyRepr])
  exact ⟨h.1, h.2 (by simp) (fun hh => UnknownKeys.noConfusion hh)⟩

theorem pathKey_congr_parent {p1 p2 : Invalid} (ht : p1.node.typ = p2.node.typ) :
    ∀ rest, pathKey (some p1) rest = pathKey (some p2) rest := by
  intro rest
  cases rest with
  | nil => rfl
  | cons exc rest2 => simp [pathKey, keynameAt, ht]

theorem asdictFold_append :
    ∀ (A B : List (List Invalid)) (errs : List (String × String)),
      asdictFold (A ++ B) errs = asdictFold B (asdictFold A errs) := by
  intro A
  induction A with
  | nil => intro B errs; rfl
  | cons p A2 ih => intro B errs; simp [asdictFold, ih]

theorem asdictFold_map_cons_congr {i1 i2 : Invalid}
    (hn : i1.node.name = i2.node.name) (ht : i1.node.typ = i2.node.typ)
    (hm : i1.msg = i2.msg) :
    ∀ (L : List (List Invalid)) (errs : List (String × String)),
      asdictFold (L.map (i1 :: ·)) errs = asdictFold (L.map (i2 :: ·)) errs := by
  intro L
  induction L with
  | nil => intro errs; rfl
  | cons p L2 ih =>
    intro errs
    have hkey : pathKey none (i1 :: p) = pathKey none (i2 :: p) := by
      simp [pathKey, keynameAt, hn, pathKey_congr_parent ht]
    have hmsg : pathMsgs (i1 :: p) = pathMsgs (i2 :: p) := by
      simp [pathMsgs, hm]
    simp only [List.map_cons, asdictFold, hkey, hmsg]
    exact ih _

theorem asdictFold_pathsList_congr {i1 i2 : Invalid}
    (hn : i1.node.name = i2.node.name) (ht : i1.node.typ = i2.node.typ)
    (hm : i1.msg = i2.msg) :
    ∀ (cs : List Invalid) (errs : List (String × String)),
      asdictFold (pathsList i1 cs) errs = asdictFold (pathsList i2 cs) errs := by
  intro cs
  induction cs with
  | nil => intro errs; simp [pathsList]
  | cons c cs2 ih =>
    intro errs
    simp only [pathsList, asdictFold_append]
    rw [asdictFold_map_cons_congr hn ht hm]
    exact ih _

theorem asdict_mk_congr {n1 n2 : SchemaNode} (m : Option String) (p : Option Nat)
    (cs : List Invalid) (hn : n1.name = n2.name) (ht : n1.typ = n2.typ) :
    Invalid.asdict (.mk n1 m p cs) = Invalid.asdict (.mk n2 m p cs) := by
  cases cs with
  | nil =>
    simp [Invalid.asdict, Invalid.paths, asdictFold, pathKey, pathMsgs, keynameAt,
      Invalid.node, Invalid.msg, hn]
  | cons c cs2 =>
    simp only [Invalid.asdict, Invalid.paths]
    exact asdictFold_pathsList_congr (by simpa [Invalid.node] using hn)
      (by simpa [Invalid.node] using ht) (by simp [Invalid.msg]) (c :: cs2) []

theorem seqChildren_tail_irrelevant (dir : Dir) (t : SchemaNode)
    (ts1 ts2 : List SchemaNode) :
    ∀ (num : Nat) (elems : List Val),
      seqChildren dir (t :: ts1) num elems = seqChildren dir (t :: ts2) num elems := by
  intro num elems
  induction elems generalizing num with
  | nil => simp [seqChildren]
  | cons e rest ih =>
    simp only [seqChildren]
    rw [ih (num + 1)]

/-- Claim C10: Sequence conversion consults only the first child node as
the element template: two Sequence nodes sharing their first child but
differing arbitrarily in the remaining children produce the same outcome
on every input and direction — the same value on success, and failures
with identical error reports. -/
theorem C10_sequence_template (dir : Dir) (a : Bool) (nm : String)
    (df : Option Val) (t : SchemaNode) (ts1 ts2 : List SchemaNode) (v : Val) :
    sameOutcome (conv dir (.mk (.sequence a) nm df (t :: ts1)) v)
      (conv dir (.mk (.sequence a) nm df (t :: ts2)) v) := by
  simp only [conv, seqCoerce]
  by_cases h1 : (hasIter v && !hasGet v) = true
  · simp only [h1, if_true]
    rw [seqChildren_tail_irrelevant dir t ts1 ts2 0 (pyList v)]
    cases hsc : seqChildren dir (t :: ts2) 0 (pyList v) with
    | none => simp [sameOutcome]
    | some p =>
      obtain ⟨res, errs⟩ := p
      cases errs with
      | nil => simp [sameOutcome]
      | cons e es =>
        simp only [sameOutcome]
        exact asdict_mk_congr none none (e :: es) rfl rfl
  · rw [if_neg h1, if_neg h1]
    cases a with
    | true =>
      simp only [if_true]
      rw [seqChildren_tail_irrelevant dir t ts1 ts2 0 [v]]
      cases hsc : seqChildren dir (t :: ts2) 0 [v] with
      | none => simp [sameOutcome]
      | some p =>
        obtain ⟨res, errs⟩ := p
        cases errs with
        | nil => simp [sameOutcome]
        | cons e es =>
          simp only [sameOutcome]
          exact asdict_mk_congr none none (e :: es) rfl rfl
    | false =>
      simp only [Bool.false_eq_true, if_false, sameOutcome]
      exact asdict_mk_congr _ none [] rfl rfl

theorem digitChar_ne_dot (d : Nat) : digitChar d ≠ '.' := by
  unfold digitChar
  split <;> decide

theorem natDigitsAux_ne_dot : ∀ (fuel n : Nat), '.' ∉ natDigitsAux fuel n := by
  intro fuel
  induction fuel with
  | zero => intro n; simp [natDigitsAux]
  | succ f ih =>
    intro n hmem
    simp only [natDigitsAux] at hmem
    by_cases h : n < 10
    · rw [if_pos h] at hmem
      simp only [List.mem_singleton] at hmem
      exact digitChar_ne_dot n hmem.symm
    · rw [if_neg h] at hmem
      rcases List.mem_append.mp hmem with hm | hm
      · exact ih (n / 10) hm
      · simp only [List.mem_singleton] at hm
        exact digitChar_ne_dot (n % 10) hm.symm

theorem natToStr_ne_dot (n : Nat) : '.' ∉ (natToStr n).data :=
  natDigitsAux_ne_dot (n + 1) n

theorem strOfPos_ne_dot (p : Option Nat) : '.' ∉ (strOfPos p).data := by
  cases p with
  | none => decide
  | some n => exact natToStr_ne_dot n

theorem splitDots_dotfree : ∀ (p : List Char), '.' ∉ p → splitDots p = [p] := by
  intro p
  induction p with
  | nil => intro _; rfl
  | cons c rest ih =>
    intro h
    simp only [List.mem_cons] at h
    push_neg at h
    have hc : ¬(c = '.') := fun hh => h.1 hh.symm
    simp only [splitDots, if_neg hc, ih h.2]

theorem splitDots_append_dot (t : List Char) :
    ∀ (p : List Char), '.' ∉ p → splitDots (p ++ '.' :: t) = p :: splitDots t := by
  intro p
  induction p with
  | nil => intro _; simp [splitDots]
  | cons c rest ih =>
    intro h
    simp only [List.mem_cons] at h
    push_neg at h
    have hc : ¬(c = '.') := fun hh => h.1 hh.symm
    simp only [List.cons_append, splitDots, if_neg hc, List.append_eq]
    rw [ih h.2]

theorem joinDot_splitDots :
    ∀ (parts : List String), parts ≠ [] →
      (∀ part ∈ parts, part ≠ "" ∧ '.' ∉ part.data) →
      splitDots (joinDot parts).data = parts.map String.data := by
  intro parts
  induction parts with
  | nil => intro h _; exact absurd rfl h
  | cons s rest ih =>
    intro _ hparts
    cases rest with
    | nil =>
      simp only [joinDot, List.map]
      exact splitDots_dotfree s.data (hparts s (by simp)).2
    | cons s2 rest2 =>
      have hjoin : joinDot (s :: s2 :: rest2) = s ++ "." ++ joinDot (s2 :: rest2) := rfl
      rw [hjoin]
      have hdata : (s ++ "." ++ joinDot (s2 :: rest2)).data =
          s.data ++ '.' :: (joinDot (s2 :: rest2)).data := by
        simp [String.data_append]
      rw [hdata, splitDots_append_dot _ s.data (hparts s (by simp)).2,
        ih (by simp) (fun part hp => hparts part (by simp [hp]))]
      rfl

theorem str_eq_empty_of_data {s : String} (h : s.data = []) : s = "" := by
  cases s
  simp only at h
  subst h
  rfl

theorem keynameAt_ne_dot {parent : Option Invalid} {exc : Invalid}
    (h : '.' ∉ exc.node.name.data) : '.' ∉ (keynameAt parent exc).data := by
  cases parent with
  | none => exact h
  | some pe =>
    simp only [keynameAt]
    by_cases hp : pe.node.typ.positional = true
    · simp only [hp, if_true]
      exact strOfPos_ne_dot exc.pos
    · simp only [hp, if_false]
      exact h

theorem pathKey_parts :
    ∀ (path : List Invalid) (parent : Option Invalid),
      (∀ e ∈ path, '.' ∉ e.node.name.data) →
      ∀ part ∈ pathKey parent path, part ≠ "" ∧ '.' ∉ part.data := by
  intro path
  induction path with
  | nil => intro parent _ part hpart; simp [pathKey] at hpart
  | cons exc rest ih =>
    intro parent h part hpart
    simp only [pathKey] at hpart
    rcases List.mem_append.mp hpart with hm | hm
    · by_cases hkn : keynameAt parent exc = ""
      · simp [hkn] at hm
      · simp only [if_neg hkn, List.mem_singleton] at hm
        subst hm
        exact ⟨hkn, keynameAt_ne_dot (h exc (by simp))⟩
    · exact ih (some exc) (fun e he => h e (by simp [he])) part hm

theorem mem_alInsert_key {α : Type} {k2 : String} {v : α} {kv : String × α} :
    ∀ d : List (String × α), kv ∈ alInsert k2 v d → kv.1 = k2 ∨ kv ∈ d := by
  intro d
  induction d with
  | nil =>
    intro h
    simp only [alInsert, List.mem_singleton] at h
    left; rw [h]
  | cons e rest ih =>
    obtain ⟨ek, ev⟩ := e
    intro h
    simp only [alInsert] at h
    by_cases hk : k2 = ek
    · rw [if_pos hk] at h
      rcases List.mem_cons.mp h with hm | hm
      · left; rw [hm, hk]
      · right; simp [hm]
    · rw [if_neg hk] at h
      rcases List.mem_cons.mp h with hm | hm
      · right; simp [hm]
      · rcases ih hm with hm2 | hm2
        · left; exact hm2
        · right; simp [hm2]

theorem mem_asdictFold {kv : String × String} :
    ∀ (L : List (List Invalid)) (errs : List (String × String)),
      kv ∈ asdictFold L errs →
      kv ∈ errs ∨ ∃ p ∈ L, kv.1 = joinDot (pathKey none p) := by
  intro L
  induction L with
  | nil => intro errs h; left; exact h
  | cons p L2 ih =>
    intro errs h
    simp only [asdictFold] at h
    rcases ih _ h with hmem | ⟨q, hq, hkey⟩
    · rcases mem_alInsert_key _ hmem with hk | hm
      · right; exact ⟨p, by simp, hk⟩
      · left; exact hm
    · right; exact ⟨q, by simp [hq], hkey⟩

theorem dotFreeList_mem :
    ∀ (cs : List Invalid), DotFreeList cs → ∀ c ∈ cs, DotFreeInv c := by
  intro cs
  induction cs with
  | nil => intro _ c hc; simp at hc
  | cons c2 rest ih =>
    intro h c hc
    simp only [DotFreeList] at h
    rcases List.mem_cons.mp hc with hh | hh
    · subst hh; exact h.1
    · exact ih h.2 c hh

theorem paths_names_dotfree_aux :
    ∀ (k : Nat) (inv : Invalid), sizeOf inv ≤ k → DotFreeInv inv →
      ∀ p ∈ Invalid.paths inv, ∀ e ∈ p, '.' ∉ e.node.name.data := by
  intro k
  induction k with
  | zero =>
    intro inv hsz
    obtain ⟨n, m, pp, cs⟩ := inv
    simp only [Invalid.mk.sizeOf_spec] at hsz
    omega
  | succ k ih =>
    intro inv hsz h
    obtain ⟨n, m, pp, cs⟩ := inv
    simp only [DotFreeInv] at h
    have hsub : ∀ c ∈ cs, sizeOf c ≤ k := by
      intro c hc
      have h1 := List.sizeOf_lt_of_mem hc
      simp only [Invalid.mk.sizeOf_spec] at hsz
      omega
    cases cs with
    | nil =>
      intro p hp e he
      simp only [Invalid.paths, List.mem_singleton] at hp
      subst hp
      simp only [List.mem_singleton] at he
      subst he
      exact h.1
    | cons c cs2 =>
      intro p hp e he
      simp only [Invalid.paths] at hp
      have haux : ∀ (csx : List Invalid),
          (∀ cx ∈ csx, sizeOf cx ≤ k ∧ DotFreeInv cx) →
          ∀ px ∈ pathsList (.mk n m pp (c :: cs2)) csx,
            ∀ ex ∈ px, '.' ∉ ex.node.name.data := by
        intro csx
        induction csx with
        | nil => intro _ px hpx; simp [pathsList] at hpx
        | cons cx restx ihl =>
          intro hall px hpx ex hex
          simp only [pathsList] at hpx
          rcases List.mem_append.mp hpx with hm | hm
          · rcases List.mem_map.mp hm with ⟨q, hq, hqp⟩
            subst hqp
            rcases List.mem_cons.mp hex with he2 | he2
            · subst he2
              simpa [Invalid.node] using h.1
            · exact ih cx (hall cx (by simp)).1 (hall cx (by simp)).2 q hq ex he2
          · exact ihl (fun c2 hc2 => hall c2 (by simp [hc2])) px hm ex hex
      refine haux (c :: cs2) ?_ p hp e he
      intro cx hcx
      exact ⟨hsub cx hcx, dotFreeList_mem (c :: cs2) h.2 cx hcx⟩

theorem paths_names_dotfree (inv : Invalid) (h : DotFreeInv inv) :
    ∀ p ∈ Invalid.paths inv, ∀ e ∈ p, '.' ∉ e.node.name.data :=
  paths_names_dotfree_aux (sizeOf inv) inv le_rfl h

/-- Claim C9 is false as stated: a failure node for a schema node whose
name is the string `"."` produces the report `{'.': 'm'}`, whose key is
nonempty, starts with the `.` separator, and splits into empty segments. -/
theorem C9_counterexample :
    Invalid.asdict (.mk (.mk .boolean "." none []) (some "m") none []) =
      [(".", "m")] ∧
    ("." : String) ≠ "" ∧ [] ∈ splitDots ("." : String).data := by
  refine ⟨?_, by decide, by decide⟩
  simp [Invalid.asdict, Invalid.paths, asdictFold, pathKey, pathMsgs, keynameAt,
    Invalid.node, Invalid.msg, SchemaNode.name, joinDot, joinSemi, alInsert]

/-- Claim C9, amended: an empty key segment contributes no segment and a
missing (or empty) message contributes no message to the joined report
entries; consequently, provided no schema node name in the failure tree
contains the `.` character, every report key is either empty or splits on
`.` into nonempty segments only (in particular it has no leading,
trailing, or doubled separator). -/
theorem C9_no_empty_segments (inv : Invalid) (h : DotFreeInv inv) :
    ∀ kv ∈ Invalid.asdict inv, kv.1 = "" ∨ [] ∉ splitDots kv.1.data := by
  intro kv hkv
  simp only [Invalid.asdict] at hkv
  rcases mem_asdictFold inv.paths [] hkv with hemp | ⟨p, hp, hkey⟩
  · simp at hemp
  · by_cases hnil : pathKey none p = []
    · left; rw [hkey, hnil]; rfl
    · right
      rw [hkey]
      have hparts := pathKey_parts p none (paths_names_dotfree inv h p hp)
      rw [joinDot_splitDots _ hnil hparts]
      intro hmem
      rcases List.mem_map.mp hmem with ⟨part, hpart, hdata⟩
      exact (hparts part hpart).1 (str_eq_empty_of_data hdata)

theorem C9_witness :
    ("a" : String) = "" ∨ [] ∉ splitDots ("a" : String).data := by
  have h := C9_no_empty_segments (.mk (.mk .boolean "a" none []) (some "m") none [])
    (by simp only [DotFreeInv, DotFreeList, SchemaNode.name]
        exact ⟨by decide, trivial⟩)
  refine h ("a", "m") ?_
  simp [Invalid.asdict, Invalid.paths, asdictFold, pathKey, pathMsgs, keynameAt,
    Invalid.node, Invalid.msg, SchemaNode.name, joinDot, joinSemi, alInsert]

theorem validZip_length :
    ∀ (ns : List SchemaNode) (xs : List Val), ValidZip ns xs →
      xs.length = ns.length := by
  intro ns
  induction ns with
  | nil =>
    intro xs h
    cases xs with
    | nil => rfl
    | cons x xs2 => simp [ValidZip] at h
  | cons n rest ih =>
    intro xs h
    cases xs with
    | nil => simp [ValidZip] at h
    | cons x xs2 =>
      simp only [ValidZip] at h
      simp [ih xs2 h.2]

theorem rt_aux :
    ∀ (k : Nat) (node : SchemaNode) (v : Val), sizeOf node ≤ k →
      Valid node v →
      ∃ w, conv .ser node v = .ok w ∧ conv .deser node w = .ok v := by
  intro k
  induction k with
  | zero =>
    intro node v hsz
    obtain ⟨t, nm, df, ns⟩ := node
    simp only [SchemaNode.mk.sizeOf_spec] at hsz
    omega
  | succ k ih =>
    intro node v hsz hv
    obtain ⟨t, nm, df, ns⟩ := node
    have hsub : ∀ c ∈ ns, sizeOf c ≤ k := by
      intro c hc
      have h1 := List.sizeOf_lt_of_mem hc
      simp only [SchemaNode.mk.sizeOf_spec] at hsz
      omega
    cases t with
    | integer =>
      simp only [Valid] at hv
    | boolean =>
      simp only [Valid] at hv
      obtain ⟨b, rfl⟩ := hv
      cases b with
      | true =>
        refine ⟨.str "true", ?_, ?_⟩ <;>
          simp [conv, pyTruthy, pyStr, asciiLower, lowerChar]
      | false =>
        refine ⟨.str "false", ?_, ?_⟩ <;>
          simp [conv, pyTruthy, pyStr, asciiLower, lowerChar]
    | mapping uk =>
      simp only [Valid] at hv
      obtain ⟨hnd, vals, rfl, hvz⟩ := hv
      have hzip : ∀ (nsx : List SchemaNode) (vals2 : List Val) (num : Nat),
          (∀ c ∈ nsx, sizeOf c ≤ k) →
          (nsx.map SchemaNode.name).Nodup → ValidZip nsx vals2 →
          ∃ ws, ws.length = vals2.length ∧
            mapChildren .ser nsx num ((nsx.map SchemaNode.name).zip vals2) =
              some ((nsx.map SchemaNode.name).zip ws, [], []) ∧
            mapChildren .deser nsx num ((nsx.map SchemaNode.name).zip ws) =
              some ((nsx.map SchemaNode.name).zip vals2, [], []) := by
        intro nsx
        induction nsx with
        | nil =>
          intro vals2 num _ _ hvz2
          cases vals2 with
          | nil => exact ⟨[], rfl, by simp [mapChildren], by simp [mapChildren]⟩
          | cons v2 vs => simp [ValidZip] at hvz2
        | cons sub rest ihz =>
          intro vals2 num hsz2 hnd2 hvz2
          cases vals2 with
          | nil => simp [ValidZip] at hvz2
          | cons v0 vs =>
            simp only [ValidZip] at hvz2
            obtain ⟨w0, hw0s, hw0d⟩ := ih sub v0 (hsz2 sub (by simp)) hvz2.1
            simp only [List.map_cons, List.nodup_cons] at hnd2
            obtain ⟨ws, hlen, hser, hdeser⟩ :=
              ihz vs (num + 1) (fun c hc => hsz2 c (by simp [hc])) hnd2.2 hvz2.2
            have hvslen : vs.length = rest.length := validZip_length rest vs hvz2.2
            have hkeys : ((rest.map SchemaNode.name).zip vs).map Prod.fst =
                rest.map SchemaNode.name := by
              apply List.map_fst_zip
              simp [hvslen]
            have hkeysw : ((rest.map SchemaNode.name).zip ws).map Prod.fst =
                rest.map SchemaNode.name := by
              apply List.map_fst_zip
              simp [hlen, hvslen]
            refine ⟨w0 :: ws, by simp [hlen], ?_, ?_⟩
            · simp only [List.map_cons, List.zip_cons_cons, mapChildren]
              rw [show alGet sub.name ((sub.name, v0) ::
                  (rest.map SchemaNode.name).zip vs) = some v0 from by simp [alGet]]
              rw [show stepResult .ser sub (some v0) = some (.ok w0) from by
                simp [stepResult, hw0s]]
              rw [show alRemove sub.name ((sub.name, v0) ::
                  (rest.map SchemaNode.name).zip vs) =
                  (rest.map SchemaNode.name).zip vs from by
                rw [alRemove_cons, if_pos rfl]
                exact alRemove_not_mem _ (by rw [hkeys]; exact hnd2.1)]
              rw [hser]
            · simp only [List.map_cons, List.zip_cons_cons, mapChildren]
              rw [show alGet sub.name ((sub.name, w0) ::
                  (rest.map SchemaNode.name).zip ws) = some w0 from by simp [alGet]]
              rw [show stepResult .deser sub (some w0) = some (.ok v0) from by
                simp [stepResult, hw0d]]
              rw [show alRemove sub.name ((sub.name, w0) ::
                  (rest.map SchemaNode.name).zip ws) =
                  (rest.map SchemaNode.name).zip ws from by
                rw [alRemove_cons, if_pos rfl]
                exact alRemove_not_mem _ (by rw [hkeysw]; exact hnd2.1)]
              rw [hdeser]
      obtain ⟨ws, hlen, hser, hdeser⟩ := hzip ns vals 0 hsub hnd hvz
      have hvalslen : vals.length = ns.length := validZip_length ns vals hvz
      have hkeysw : ((ns.map SchemaNode.name).zip ws).map Prod.fst =
          ns.map SchemaNode.name := by
        apply List.map_fst_zip
        simp [hlen, hvalslen]
      have hkeysv : ((ns.map SchemaNode.name).zip vals).map Prod.fst =
          ns.map SchemaNode.name := by
        apply List.map_fst_zip
        simp [hvalslen]
      have hofw : alOfPairs ((ns.map SchemaNode.name).zip ws) =
          (ns.map SchemaNode.name).zip ws :=
        alOfPairs_nodup _ (by rw [hkeysw]; exact hnd)
      have hofv : alOfPairs ((ns.map SchemaNode.name).zip vals) =
          (ns.map SchemaNode.name).zip vals :=
        alOfPairs_nodup _ (by rw [hkeysv]; exact hnd)
      refine ⟨.map ((ns.map SchemaNode.name).zip ws), ?_, ?_⟩
      · simp only [conv, dictCoerce]
        rw [hser]
        cases uk <;> simp [alUpdate_nil, hofw]
      · simp only [conv, dictCoerce]
        rw [hdeser]
        cases uk <;> simp [alUpdate_nil, hofv]
    | sequence a =>
      cases ns with
      | nil => simp only [Valid] at hv
      | cons t ts =>
        simp only [Valid] at hv
        obtain ⟨xs, rfl, hve⟩ := hv
        have heach : ∀ (xs2 : List Val) (num : Nat), ValidEach t xs2 →
            ∃ ws, ws.length = xs2.length ∧
              seqChildren .ser (t :: ts) num xs2 = some (ws, []) ∧
              seqChildren .deser (t :: ts) num ws = some (xs2, []) := by
          intro xs2
          induction xs2 with
          | nil =>
            intro num _
            exact ⟨[], rfl, by simp [seqChildren], by simp [seqChildren]⟩
          | cons x xrest ihe =>
            intro num hve2
            simp only [ValidEach] at hve2
            obtain ⟨w0, hw0s, hw0d⟩ := ih t x (hsub t (by simp)) hve2.1
            obtain ⟨ws, hlen, hser, hdeser⟩ := ihe (num + 1) hve2.2
            refine ⟨w0 :: ws, by simp [hlen], ?_, ?_⟩
            · simp only [seqChildren, hw0s]
              rw [hser]
              rfl
            · simp only [seqChildren, hw0d]
              rw [hdeser]
              rfl
        obtain ⟨ws, hlen, hser, hdeser⟩ := heach xs 0 hve
        refine ⟨.list ws, ?_, ?_⟩
        · simp only [conv, seqCoerce, hasIter, hasGet, pyList, Bool.not_false,
            Bool.and_self, if_true]
          rw [hser]
        · simp only [conv, seqCoerce, hasIter, hasGet, pyList, Bool.not_false,
            Bool.and_self, if_true]
          rw [hdeser]
    | tuple =>
      simp only [Valid] at hv
      obtain ⟨xs, rfl, hvz⟩ := hv
      have htup : ∀ (nsx : List SchemaNode) (xs2 : List Val) (num : Nat),
          (∀ c ∈ nsx, sizeOf c ≤ k) → ValidZip nsx xs2 →
          ∃ ws, ws.length = xs2.length ∧
            tupleChildren .ser nsx xs2 num = some (ws, []) ∧
            tupleChildren .deser nsx ws num = some (xs2, []) := by
        intro nsx
        induction nsx with
        | nil =>
          intro xs2 num _ hvz2
          cases xs2 with
          | nil => exact ⟨[], rfl, by simp [tupleChildren], by simp [tupleChildren]⟩
          | cons x xrest => simp [ValidZip] at hvz2
        | cons sub rest ihz =>
          intro xs2 num hsz2 hvz2
          cases xs2 with
          | nil => simp [ValidZip] at hvz2
          | cons x xrest =>
            simp only [ValidZip] at hvz2
            obtain ⟨w0, hw0s, hw0d⟩ := ih sub x (hsz2 sub (by simp)) hvz2.1
            obtain ⟨ws, hlen, hser, hdeser⟩ :=
              ihz xrest (num + 1) (fun c hc => hsz2 c (by simp [hc])) hvz2.2
            refine ⟨w0 :: ws, by simp [hlen], ?_, ?_⟩
            · simp only [tupleChildren, hw0s]
              rw [hser]
              rfl
            · simp only [tupleChildren, hw0d]
              rw [hdeser]
              rfl
      obtain ⟨ws, hlen, hser, hdeser⟩ := htup ns xs 0 hsub hvz
      have hxlen : xs.length = ns.length := validZip_length ns xs hvz
      refine ⟨.tuple ws, ?_, ?_⟩
      · simp only [conv, hasIter, pyList, if_true]
        rw [if_pos (by simp [hxlen]), hser]
      · simp only [conv, hasIter, pyList, if_true]
        rw [if_pos (by simp [hlen, hxlen]), hdeser]

/-- Claim C3: for every schema node tree whose composites are Mapping,
Sequence, or Tuple and whose leaves are total scalar converters (Boolean),
and every valid internal value `v` of the tree, outbound conversion
succeeds and inbound conversion applied to its output returns `v`:
`inbound(outbound(v)) == v`. -/
theorem C3_roundtrip (node : SchemaNode) (v : Val) (hv : Valid node v) :
    ∃ w, conv .ser node v = .ok w ∧ conv .deser node w = .ok v :=
  rt_aux (sizeOf node) node v le_rfl hv

theorem C3_witness :
    ∃ w,
      conv .ser (.mk (.mapping .ignore) "" none
          [.mk .boolean "a" none [],
           .mk (.sequence false) "b" none [.mk .boolean "e" none []]])
        (.map [("a", .bool true), ("b", .list [.bool false])]) = .ok w ∧
      conv .deser (.mk (.mapping .ignore) "" none
          [.mk .boolean "a" none [],
           .mk (.sequence false) "b" none [.mk .boolean "e" none []]]) w =
        .ok (.map [("a", .bool true), ("b", .list [.bool false])]) :=
  C3_roundtrip _ _ (by
    simp only [Valid]
    refine ⟨by decide, [.bool true, .list [.bool false]], rfl, ?_⟩
    simp only [ValidZip, Valid]
    refine ⟨⟨true, rfl⟩, ⟨[.bool false], rfl, ?_⟩, trivial⟩
    simp only [ValidEach, Valid]
    exact ⟨⟨false, rfl⟩, trivial⟩)

end Colander
